import Mathlib

/-!
Verification of the encrypted object-storage pipeline and secure token codec
of the tempdownloads service.

The development shallowly embeds the JavaScript sources:
  * `src/utils/fileValidation.js`  — magic-number table and `validateBuffer`;
  * `src/unnamed/part_004`         — `LocalStorageStrategy` (`saveLocalStream`,
    `getStream`, `_parseKey`, delete-on-failure);
  * `src/utils/sanitizer.js` (encryption utility section) — token codec
    (`PARSED_KEYS`, `PARSED_IV`, `encrypt`, `decrypt`).

Bytes are `Nat` values below 256, byte sequences are `List Nat`, JavaScript
strings are `List Char`.  The Node `crypto` library primitives (AES-256-GCM,
SHA-256) are modelled at the algebraic level the pipeline relies on:
AES-256-GCM is a CTR-style stream cipher (ciphertext = plaintext XOR a
keystream determined by key and nonce) together with an authentication tag
that is a deterministic function of key, nonce and ciphertext, and decryption
succeeds exactly when the presented tag matches; SHA-256 is a deterministic
digest of the byte sequence, absorbed chunk by chunk.  The concrete mixing
functions are simple executable stand-ins with the same functional shape.
-/

namespace TempDL

/-! ## Model of the Node `crypto` primitives -/

/-- One absorption step of the byte-mixing function shared by the modelled
primitives (a 32-bit multiply-add compression step). -/
def mixStep (a b : Nat) : Nat := (a * 131 + b + 7) % 4294967296

/-- Absorb a byte sequence into a running state, byte by byte. -/
def absorbBytes (s : Nat) (bs : List Nat) : Nat := bs.foldl mixStep s

/-- Expand a final hash state into a 32-byte digest.
Models the output side of `crypto.createHash('sha256').digest()`. -/
def sha256Digest (s : Nat) : List Nat :=
  (List.range 32).map (fun j => mixStep s j % 256)

/-- Model of the SHA-256 digest of a whole byte sequence: the digest of the
state obtained by absorbing every byte in order from the standard seed. -/
def sha256Model (bs : List Nat) : List Nat := sha256Digest (absorbBytes 5381 bs)

/-- Model of the AES-256-CTR keystream byte at position `i` under `key` and
nonce `iv` (GCM encrypts in counter mode, so the ciphertext is the plaintext
XORed with a keystream determined by key and nonce alone). -/
def keystream (key iv : List Nat) (i : Nat) : Nat :=
  mixStep (absorbBytes (absorbBytes 9029 key) iv) i % 256

/-- CTR-mode encryption starting at counter position `i`: XOR each byte with
the keystream.  Decryption is the same function (XOR is an involution). -/
def ctrEnc (key iv : List Nat) : Nat → List Nat → List Nat
  | _, [] => []
  | i, b :: bs => (b ^^^ keystream key iv i) :: ctrEnc key iv (i + 1) bs

/-- Model of the 16-byte GCM authentication tag: a deterministic function of
key, nonce, ciphertext and ciphertext length (as GHASH is). -/
def ghashTag (key iv ct : List Nat) : List Nat :=
  (List.range 16).map (fun j =>
    mixStep (mixStep (absorbBytes (absorbBytes (absorbBytes 7919 key) iv) ct) ct.length) j % 256)

/-- Model of an AES-256-GCM decryption pass (`createDecipheriv` + `setAuthTag`
+ `update`/`final`): succeeds with the CTR decryption exactly when the
presented tag equals the tag of the ciphertext under this key and nonce;
any mismatch makes `final()` throw, modelled as `none`. -/
def gcmDecrypt (key iv ct tag : List Nat) : Option (List Nat) :=
  if ghashTag key iv ct = tag then some (ctrEnc key iv 0 ct) else none

/-! ## `src/utils/fileValidation.js` -/

/-- Byte-by-byte signature comparison from `validateBuffer`'s inner loop:
`buffer[i] !== numbers[i]` breaks the match (a missing byte never matches). -/
def sigMatches : List Nat → List Nat → Bool
  | _, [] => true
  | [], _ :: _ => false
  | b :: bs, n :: ns => b = n && sigMatches bs ns

/-- The `MAGIC_NUMBERS` table of accepted leading file signatures, in source
order (the `jpg` entry is three bytes long). -/
def MAGIC_NUMBERS : List (String × List Nat) :=
  [("jpg", [0xFF, 0xD8, 0xFF]),
   ("png", [0x89, 0x50, 0x4E, 0x47]),
   ("gif", [0x47, 0x49, 0x46, 0x38]),
   ("pdf", [0x25, 0x50, 0x44, 0x46]),
   ("zip", [0x50, 0x4B, 0x03, 0x04]),
   ("7z",  [0x37, 0x7A, 0xBC, 0xAF])]

/-- `validateBuffer`: `null` for buffers shorter than 4 bytes, otherwise the
extension of the first table entry whose signature bytes all match. -/
def validateBuffer (buffer : List Nat) : Option String :=
  if buffer.length < 4 then none
  else (MAGIC_NUMBERS.find? (fun p => sigMatches buffer p.2)).map (fun p => p.1)

/-! ## JavaScript string/byte helpers (Node `Buffer` hex codec, `split`) -/

/-- Lowercase hex digit for a value below 16, as produced by Node's
`buffer.toString('hex')`. -/
def hexDigit (n : Nat) : Char :=
  if n < 10 then Char.ofNat (48 + n) else Char.ofNat (87 + n)

/-- Two lowercase hex characters of one byte. -/
def byteToHex (b : Nat) : List Char := [hexDigit (b / 16), hexDigit (b % 16)]

/-- `buffer.toString('hex')`: the concatenated hex pairs of the bytes. -/
def toHex (bs : List Nat) : List Char := (bs.map byteToHex).flatten

/-- Value of one hex character, `none` for a non-hex character. -/
def hexCharVal (c : Char) : Option Nat :=
  if 48 ≤ c.toNat ∧ c.toNat ≤ 57 then some (c.toNat - 48)
  else if 97 ≤ c.toNat ∧ c.toNat ≤ 102 then some (c.toNat - 87)
  else if 65 ≤ c.toNat ∧ c.toNat ≤ 70 then some (c.toNat - 55)
  else none

/-- Node's lenient `Buffer.from(str, 'hex')`: decode two characters at a time,
stop (without error) at the first invalid pair or at a dangling odd
character, returning the bytes decoded so far. -/
def fromHexLenient : List Char → List Nat
  | c1 :: c2 :: rest =>
    match hexCharVal c1, hexCharVal c2 with
    | some h, some l => (16 * h + l) :: fromHexLenient rest
    | _, _ => []
  | _ => []

/-- JavaScript `string.split(sep)` for a one-character separator, on strings
modelled as character lists: splits at every occurrence of `sep`. -/
def splitOnChar (sep : Char) : List Char → List (List Char)
  | [] => [[]]
  | c :: rest =>
    match splitOnChar sep rest with
    | [] => [[]]
    | g :: gs => if c = sep then [] :: g :: gs else (c :: g) :: gs

/-! ## `src/unnamed/part_004` — `LocalStorageStrategy` -/

namespace LocalStorage

/-- `_parseKey`: a 64-character key is read as hex (Node's `Buffer.from(key,
'hex')` is lenient: it decodes pairs until the first invalid one); any other
key string is `padEnd(32)`-padded with spaces and `slice(0, 32)`-truncated,
then used as its raw bytes (characters modelled as single bytes, which is
exact for ASCII configuration keys). -/
def parseKey (key : List Char) : List Nat :=
  if key.length = 64 then TempDL.fromHexLenient key
  else ((key ++ List.replicate (32 - key.length) ' ').take 32).map Char.toNat

/-- The single failure `saveLocalStream`'s validator stage raises:
"Invalid file signature (Magic Byte Mismatch)". -/
inductive SaveError where
  | invalidSignature
  deriving DecidableEq, Repr

/-- Successful result of `saveLocalStream`: the returned `{checksum,
isEncrypted}` object together with the byte content of the file that the
pipeline's sink wrote. -/
structure SaveOk where
  checksum : List Nat
  isEncrypted : Bool
  file : List Nat
  deriving DecidableEq, Repr

/-- The validator `Transform` of `saveLocalStream`, run over the list of
stream chunks.  State: `validated` flag and the accumulated `magicBuffer`.
Each chunk is appended to `magicBuffer` until at least `MAGIC_CHECK_SIZE = 4`
bytes have accumulated; then `validateBuffer` decides: `null` fails the
pipeline with the signature error, otherwise validation is complete and the
stage passes every later chunk through unchecked. -/
def validateChunks (validated : Bool) (magic : List Nat) :
    List (List Nat) → Except SaveError Unit
  | [] => .ok ()
  | c :: cs =>
    if validated then validateChunks true magic cs
    else
      let m := magic ++ c
      if 4 ≤ m.length then
        match TempDL.validateBuffer m with
        | none => .error .invalidSignature
        | some _ => validateChunks true m cs
      else validateChunks false m cs

/-- `saveLocalStream`, modelled over the list of chunks of the input stream,
with the random `iv` drawn by `crypto.randomBytes(16)` passed explicitly.
The hash stage absorbs every chunk into the SHA-256 state (before the magic
check, as in the source); the cipher encrypts the concatenated plaintext in
counter mode; the containerizer frames the output as `iv ++ ciphertext ++
authTag` (the IV is pushed before the first ciphertext chunk, or in `flush`
for an empty stream, so the frame is the same either way).  On a validator
failure the `catch` block deletes the partially written file and rethrows,
so no stored object remains: the model returns only the error. -/
def saveLocalStream (key iv : List Nat) (chunks : List (List Nat)) :
    Except SaveError SaveOk :=
  match validateChunks false [] chunks with
  | .error e => .error e
  | .ok () =>
    let ct := TempDL.ctrEnc key iv 0 chunks.flatten
    .ok { checksum := TempDL.sha256Digest (chunks.foldl TempDL.absorbBytes 5381)
          isEncrypted := true
          file := iv ++ ct ++ TempDL.ghashTag key iv ct }

/-- The stored object left behind by a save: the written file on success,
nothing on failure (the `catch` block runs `this.delete(filename)`). -/
def storedFile : Except SaveError SaveOk → Option (List Nat)
  | .ok s => some s.file
  | .error _ => none

/-- The checksum reported to the caller, when the save succeeded. -/
def savedChecksum : Except SaveError SaveOk → Option (List Nat)
  | .ok s => some s.checksum
  | .error _ => none

/-- Failures of `getStream`: the too-small "File corrupted" error, and GCM
tag verification failure surfaced by the decipher stream. -/
inductive ReadError where
  | corrupted
  | authFailed
  deriving DecidableEq, Repr

/-- `getStream` over the byte content of the stored file: fail with the
corruption error when the file is smaller than `ivLength + tagLength = 32`;
otherwise read the first 16 bytes as the IV, the last 16 bytes as the auth
tag, stream the bytes strictly between them through the decipher (an empty
stream when `contentSize` is 0), and deliver the plaintext only if the tag
verifies. -/
def getStream (key file : List Nat) : Except ReadError (List Nat) :=
  if file.length < 32 then .error .corrupted
  else
    let iv := file.take 16
    let tagPosition := file.length - 16
    let tag := file.drop tagPosition
    let ct := (file.drop 16).take (tagPosition - 16)
    match TempDL.gcmDecrypt key iv ct tag with
    | some pt => .ok pt
    | none => .error .authFailed

/-- Writing a stream and then reading the stored object back: `none` when the
save failed (no object remains to read). -/
def saveThenGet (key iv : List Nat) (chunks : List (List Nat)) :
    Option (Except ReadError (List Nat)) :=
  (storedFile (saveLocalStream key iv chunks)).map (getStream key)

end LocalStorage

/-! ## `src/utils/sanitizer.js` — encryption utility (token codec) -/

namespace Sanitizer

/-- One entry of `PARSED_KEYS`: a configured key that is a 64-character hex
string (`/^[0-9a-fA-F]+$/` and length 64) is decoded to its 32 key bytes;
any other key string is returned unchanged, so the bytes later fed to
`createCipheriv` are the raw (UTF-8, here ASCII-modelled) bytes of the
string — with no padding or truncation. -/
def parseKeyEntry (key : List Char) : List Nat :=
  if (key.all fun c => (hexCharVal c).isSome) ∧ key ≠ [] ∧ key.length = 64 then
    fromHexLenient key
  else key.map Char.toNat

/-- `encrypt(payload)`: serialize the payload (`JSON.stringify`, supplied as
the `stringify` parameter), encrypt the text with the primary key
`PARSED_KEYS[0]` and the module-level configured IV `PARSED_IV`, and return
`ivHex:authTagHex:encryptedHex`.  The IV comes from configuration
(`config.security.encryptionIv`); `encrypt` draws no randomness. -/
def encrypt {α : Type} (stringify : α → List Nat) (keys : List (List Nat))
    (iv : List Nat) (payload : α) : List Char :=
  let key := keys.headD []
  let ct := ctrEnc key iv 0 (stringify payload)
  toHex iv ++ ':' :: (toHex (ghashTag key iv ct) ++ ':' :: toHex ct)

/-- One iteration of `decrypt`'s key-rotation loop: build a decipher for this
key with the parsed IV and tag, decrypt, and `JSON.parse` the plaintext
(the `parse` parameter); a tag-verification failure or a parse failure is
caught and reported as `none` so the loop can try the next key. -/
def attemptKey {α : Type} (parse : List Nat → Option α) (iv tag ct key : List Nat) :
    Option α :=
  match gcmDecrypt key iv ct tag with
  | some pt => parse pt
  | none => none

/-- `decrypt`'s loop over `PARSED_KEYS`: the first key whose attempt succeeds
wins; when every key fails the loop falls through to `return null`. -/
def tryKeys {α : Type} (parse : List Nat → Option α) (iv tag ct : List Nat) :
    List (List Nat) → Option α
  | [] => none
  | k :: ks =>
    match attemptKey parse iv tag ct k with
    | some p => some p
    | none => tryKeys parse iv tag ct ks

/-- `decrypt(token)`: split on `':'`; any field count other than 3 returns
`null`; otherwise hex-decode the three fields (leniently, as `Buffer.from(_,
'hex')` does) and run the key-rotation loop. -/
def decrypt {α : Type} (parse : List Nat → Option α) (keys : List (List Nat))
    (tk : List Char) : Option α :=
  match splitOnChar ':' tk with
  | [ivHex, tagHex, ctHex] =>
    tryKeys parse (fromHexLenient ivHex) (fromHexLenient tagHex) (fromHexLenient ctHex) keys
  | _ => none

end Sanitizer

/-! ## Helper lemmas about the embedded definitions -/

theorem keystream_lt (key iv : List Nat) (i : Nat) : keystream key iv i < 256 :=
  Nat.mod_lt _ (by omega)

theorem ctrEnc_length (key iv : List Nat) :
    ∀ (i : Nat) (pt : List Nat), (ctrEnc key iv i pt).length = pt.length := by
  intro i pt
  induction pt generalizing i with
  | nil => rfl
  | cons b bs ih => simp [ctrEnc, ih]

theorem ctrEnc_ctrEnc (key iv : List Nat) :
    ∀ (i : Nat) (pt : List Nat), ctrEnc key iv i (ctrEnc key iv i pt) = pt := by
  intro i pt
  induction pt generalizing i with
  | nil => rfl
  | cons b bs ih =>
    simp only [ctrEnc, ih]
    rw [Nat.xor_cancel_right]

theorem ctrEnc_lt (key iv : List Nat) :
    ∀ (i : Nat) (pt : List Nat), (∀ b ∈ pt, b < 256) →
      ∀ b ∈ ctrEnc key iv i pt, b < 256 := by
  intro i pt
  induction pt generalizing i with
  | nil => intro _ b hb; cases hb
  | cons x xs ih =>
    intro h b hb
    simp only [ctrEnc, List.mem_cons] at hb
    rcases hb with hb | hb
    · subst hb
      have hx : x < 256 := h x (List.mem_cons_self x xs)
      have hk : keystream key iv i < 256 := keystream_lt key iv i
      have : x ^^^ keystream key iv i < 2 ^ 8 :=
        Nat.xor_lt_two_pow (by omega) (by omega)
      omega
    · exact ih (i + 1) (fun y hy => h y (List.mem_cons_of_mem x hy)) b hb

theorem ghashTag_length (key iv ct : List Nat) : (ghashTag key iv ct).length = 16 := by
  simp [ghashTag]

theorem ghashTag_lt (key iv ct : List Nat) : ∀ b ∈ ghashTag key iv ct, b < 256 := by
  intro b hb
  simp only [ghashTag, List.mem_map] at hb
  obtain ⟨j, _, hj⟩ := hb
  omega

theorem absorbBytes_append (s : Nat) (a b : List Nat) :
    absorbBytes s (a ++ b) = absorbBytes (absorbBytes s a) b :=
  List.foldl_append ..

theorem foldl_absorbBytes (chunks : List (List Nat)) :
    ∀ s : Nat, chunks.foldl absorbBytes s = absorbBytes s chunks.flatten := by
  induction chunks with
  | nil => intro s; rfl
  | cons c cs ih =>
    intro s
    simp only [List.foldl_cons, List.flatten_cons, ih, absorbBytes_append]

theorem sigMatches_take :
    ∀ (sig buffer : List Nat) (n : Nat), sig.length ≤ n →
      sigMatches (buffer.take n) sig = sigMatches buffer sig := by
  intro sig
  induction sig with
  | nil => intro buffer n _; cases buffer <;> cases n <;> rfl
  | cons s ss ih =>
    intro buffer n hn
    cases buffer with
    | nil => simp
    | cons b bs =>
      cases n with
      | zero => simp at hn
      | succ m =>
        simp only [List.take_succ_cons, sigMatches]
        rw [ih bs m (by simpa using hn)]

theorem find_sig_congr (buffer : List Nat) :
    ∀ entries : List (String × List Nat), (∀ p ∈ entries, p.2.length ≤ 4) →
      entries.find? (fun p => sigMatches (buffer.take 4) p.2) =
        entries.find? (fun p => sigMatches buffer p.2) := by
  intro entries
  induction entries with
  | nil => intro _; rfl
  | cons e es ih =>
    intro h
    have he : sigMatches (buffer.take 4) e.2 = sigMatches buffer e.2 :=
      sigMatches_take e.2 buffer 4 (h e (List.mem_cons_self e es))
    simp only [List.find?_cons, he]
    cases sigMatches buffer e.2 with
    | true => rfl
    | false => exact ih (fun p hp => h p (List.mem_cons_of_mem e hp))

theorem validateBuffer_take4 (buffer : List Nat) (h : 4 ≤ buffer.length) :
    validateBuffer (buffer.take 4) = validateBuffer buffer := by
  have hlen : (buffer.take 4).length = 4 := by
    simp [List.length_take]; omega
  simp only [validateBuffer, hlen]
  rw [if_neg (by omega), if_neg (by omega)]
  rw [find_sig_congr buffer MAGIC_NUMBERS (by decide)]

theorem validateChunks_validated (magic : List Nat) :
    ∀ cs : List (List Nat), LocalStorage.validateChunks true magic cs = .ok () := by
  intro cs
  induction cs with
  | nil => rfl
  | cons c cs ih => simpa [LocalStorage.validateChunks] using ih

theorem validateChunks_ok :
    ∀ (cs : List (List Nat)) (m : List Nat), m.length < 4 →
      validateBuffer ((m ++ cs.flatten).take 4) ≠ none →
      LocalStorage.validateChunks false m cs = .ok () := by
  intro cs
  induction cs with
  | nil => intro m _ _; rfl
  | cons c cs ih =>
    intro m hm hv
    simp only [LocalStorage.validateChunks, if_false, Bool.false_eq_true]
    by_cases hlen : 4 ≤ (m ++ c).length
    · rw [if_pos hlen]
      have htake : (m ++ c).take 4 = ((m ++ c) ++ cs.flatten).take 4 :=
        (List.take_append_of_le_length hlen).symm
      have hv' : validateBuffer (m ++ c) ≠ none := by
        rw [← validateBuffer_take4 (m ++ c) hlen, htake]
        simpa [List.append_assoc] using hv
      obtain ⟨e, he⟩ := Option.ne_none_iff_exists'.mp hv'
      rw [he]
      exact validateChunks_validated (m ++ c) cs
    · rw [if_neg hlen]
      exact ih (m ++ c) (by omega) (by simpa [List.append_assoc] using hv)

theorem validateChunks_err :
    ∀ (cs : List (List Nat)) (m : List Nat), m.length < 4 →
      4 ≤ (m ++ cs.flatten).length →
      validateBuffer ((m ++ cs.flatten).take 4) = none →
      LocalStorage.validateChunks false m cs = .error .invalidSignature := by
  intro cs
  induction cs with
  | nil =>
    intro m hm hlen _
    simp at hlen
    omega
  | cons c cs ih =>
    intro m hm hlen hv
    simp only [LocalStorage.validateChunks, if_false, Bool.false_eq_true]
    by_cases h4 : 4 ≤ (m ++ c).length
    · rw [if_pos h4]
      have htake : (m ++ c).take 4 = ((m ++ c) ++ cs.flatten).take 4 :=
        (List.take_append_of_le_length h4).symm
      have hv' : validateBuffer (m ++ c) = none := by
        rw [← validateBuffer_take4 (m ++ c) h4, htake]
        simpa [List.append_assoc] using hv
      rw [hv']
    · rw [if_neg h4]
      refine ih (m ++ c) (by omega) ?_ (by simpa [List.append_assoc] using hv)
      simpa [List.append_assoc] using hlen

theorem validateChunks_short :
    ∀ (cs : List (List Nat)) (m : List Nat), (m ++ cs.flatten).length < 4 →
      LocalStorage.validateChunks false m cs = .ok () := by
  intro cs
  induction cs with
  | nil => intro m _; rfl
  | cons c cs ih =>
    intro m hm
    rw [List.flatten_cons, ← List.append_assoc] at hm
    have hlen := List.length_append (m ++ c) cs.flatten
    have hmc : (m ++ c).length < 4 := by omega
    simp only [LocalStorage.validateChunks, if_false, Bool.false_eq_true]
    rw [if_neg (by omega)]
    exact ih (m ++ c) hm

theorem hexCharVal_hexDigit_fin : ∀ n : Fin 16, hexCharVal (hexDigit n.val) = some n.val := by
  decide

theorem hexCharVal_hexDigit (n : Nat) (h : n < 16) : hexCharVal (hexDigit n) = some n :=
  hexCharVal_hexDigit_fin ⟨n, h⟩

theorem hexDigit_ne_colon_fin : ∀ n : Fin 16, hexDigit n.val ≠ ':' := by
  decide

theorem fromHex_toHex :
    ∀ bs : List Nat, (∀ b ∈ bs, b < 256) → fromHexLenient (toHex bs) = bs := by
  intro bs
  induction bs with
  | nil => intro _; rfl
  | cons b rest ih =>
    intro h
    have hb : b < 256 := h b (List.mem_cons_self b rest)
    have hhi : b / 16 < 16 := by omega
    have hlo : b % 16 < 16 := by omega
    simp only [toHex, List.map_cons, List.flatten_cons, byteToHex, List.cons_append,
      List.nil_append, fromHexLenient, hexCharVal_hexDigit _ hhi, hexCharVal_hexDigit _ hlo]
    rw [Nat.div_add_mod b 16]
    show b :: fromHexLenient (toHex rest) = b :: rest
    rw [ih (fun y hy => h y (List.mem_cons_of_mem b hy))]

theorem toHex_no_colon (bs : List Nat) (h : ∀ b ∈ bs, b < 256) : ':' ∉ toHex bs := by
  intro hmem
  simp only [toHex, List.mem_flatten, List.mem_map] at hmem
  obtain ⟨l, ⟨b, hb, hl⟩, hc⟩ := hmem
  have hblt : b < 256 := h b hb
  subst hl
  simp only [byteToHex, List.mem_cons, List.not_mem_nil, or_false] at hc
  rcases hc with hc | hc
  · exact hexDigit_ne_colon_fin ⟨b / 16, by omega⟩ hc.symm
  · exact hexDigit_ne_colon_fin ⟨b % 16, by omega⟩ hc.symm

theorem splitOnChar_ne_nil (sep : Char) : ∀ l : List Char, splitOnChar sep l ≠ [] := by
  intro l
  cases l with
  | nil => simp [splitOnChar]
  | cons c rest =>
    simp only [splitOnChar]
    cases splitOnChar sep rest with
    | nil => simp
    | cons g gs =>
      by_cases h : c = sep
      · simp [h]
      · simp [h]

theorem splitOnChar_sepfree (sep : Char) :
    ∀ l : List Char, sep ∉ l → splitOnChar sep l = [l] := by
  intro l
  induction l with
  | nil => intro _; rfl
  | cons c rest ih =>
    intro h
    have hc : c ≠ sep := fun he => h (he ▸ List.mem_cons_self c rest)
    have hrest : sep ∉ rest := fun hm => h (List.mem_cons_of_mem c hm)
    simp only [splitOnChar, ih hrest]
    simp [hc]

theorem splitOnChar_append (sep : Char) :
    ∀ (a r : List Char), sep ∉ a →
      splitOnChar sep (a ++ sep :: r) = a :: splitOnChar sep r := by
  intro a
  induction a with
  | nil =>
    intro r _
    simp only [List.nil_append, splitOnChar]
    cases h : splitOnChar sep r with
    | nil => exact absurd h (splitOnChar_ne_nil sep r)
    | cons g gs => simp
  | cons c rest ih =>
    intro r h
    have hc : c ≠ sep := fun he => h (he ▸ List.mem_cons_self c rest)
    have hrest : sep ∉ rest := fun hm => h (List.mem_cons_of_mem c hm)
    simp only [List.cons_append, splitOnChar, List.append_eq]
    rw [ih r hrest]
    simp [hc]

theorem split_token (a b c : List Char) (ha : ':' ∉ a) (hb : ':' ∉ b) (hc : ':' ∉ c) :
    splitOnChar ':' (a ++ ':' :: (b ++ ':' :: c)) = [a, b, c] := by
  rw [splitOnChar_append ':' a _ ha, splitOnChar_append ':' b _ hb,
    splitOnChar_sepfree ':' c hc]

theorem attemptKey_some_iff {α : Type} (parse : List Nat → Option α)
    (iv tag ct key : List Nat) (p : α) :
    Sanitizer.attemptKey parse iv tag ct key = some p ↔
      ghashTag key iv ct = tag ∧ parse (ctrEnc key iv 0 ct) = some p := by
  simp only [Sanitizer.attemptKey, gcmDecrypt]
  by_cases h : ghashTag key iv ct = tag
  · simp [h]
  · simp [h]

theorem tryKeys_none {α : Type} (parse : List Nat → Option α) (iv tag ct : List Nat) :
    ∀ keys : List (List Nat), (∀ k ∈ keys, Sanitizer.attemptKey parse iv tag ct k = none) →
      Sanitizer.tryKeys parse iv tag ct keys = none := by
  intro keys
  induction keys with
  | nil => intro _; rfl
  | cons k ks ih =>
    intro h
    simp only [Sanitizer.tryKeys, h k (List.mem_cons_self k ks)]
    exact ih (fun k' hk' => h k' (List.mem_cons_of_mem k hk'))

theorem tryKeys_some {α : Type} (parse : List Nat → Option α) (iv tag ct : List Nat) :
    ∀ (keys : List (List Nat)) (p : α), Sanitizer.tryKeys parse iv tag ct keys = some p →
      ∃ pre key post, keys = pre ++ key :: post ∧
        Sanitizer.attemptKey parse iv tag ct key = some p ∧
        ∀ k' ∈ pre, Sanitizer.attemptKey parse iv tag ct k' = none := by
  intro keys
  induction keys with
  | nil => intro p h; simp [Sanitizer.tryKeys] at h
  | cons k ks ih =>
    intro p h
    simp only [Sanitizer.tryKeys] at h
    cases hk : Sanitizer.attemptKey parse iv tag ct k with
    | some q =>
      rw [hk] at h
      refine ⟨[], k, ks, rfl, ?_, by simp⟩
      rw [hk]
      simpa using h
    | none =>
      rw [hk] at h
      obtain ⟨pre, key, post, hkeys, hkey, hpre⟩ := ih p h
      refine ⟨k :: pre, key, post, by rw [hkeys]; rfl, hkey, ?_⟩
      intro k' hk'
      rcases List.mem_cons.mp hk' with he | hm
      · rw [he]; exact hk
      · exact hpre k' hm

theorem getStream_frame (key iv ct : List Nat) (hiv : iv.length = 16) :
    LocalStorage.getStream key (iv ++ ct ++ ghashTag key iv ct) =
      .ok (ctrEnc key iv 0 ct) := by
  have htag : (ghashTag key iv ct).length = 16 := ghashTag_length key iv ct
  have hflen : (iv ++ ct ++ ghashTag key iv ct).length = ct.length + 32 := by
    simp only [List.length_append, hiv, htag]
    omega
  have h1 : (iv ++ ct ++ ghashTag key iv ct).take 16 = iv := by
    rw [List.append_assoc, List.take_append_of_le_length (by omega), ← hiv,
      List.take_length]
  have hic : (iv ++ ct).length = 16 + ct.length := by simp [hiv]
  have h3 : (iv ++ ct ++ ghashTag key iv ct).drop
      ((iv ++ ct ++ ghashTag key iv ct).length - 16) = ghashTag key iv ct := by
    rw [hflen]
    have he : ct.length + 32 - 16 = (iv ++ ct).length := by omega
    rw [he, List.drop_left]
  have h4 : (iv ++ ct ++ ghashTag key iv ct).drop 16 = ct ++ ghashTag key iv ct := by
    rw [List.append_assoc, ← hiv, List.drop_left]
  have h5 : (iv ++ ct ++ ghashTag key iv ct).length - 16 - 16 = ct.length := by omega
  simp only [LocalStorage.getStream]
  rw [if_neg (by omega)]
  rw [h4, h1, h3, h5, List.take_left]
  simp [gcmDecrypt]

/-- C1: a byte sequence whose first 4 bytes carry an accepted file signature
round-trips through the pipeline: `saveLocalStream` succeeds, its reported
checksum is the SHA-256 digest of the whole input, and `getStream` on the
stored object returns exactly the input bytes. -/
theorem object_roundtrip (key iv : List Nat) (chunks : List (List Nat))
    (hiv : iv.length = 16)
    (hsig : validateBuffer (chunks.flatten.take 4) ≠ none) :
    LocalStorage.savedChecksum (LocalStorage.saveLocalStream key iv chunks) =
      some (sha256Model chunks.flatten) ∧
    LocalStorage.saveThenGet key iv chunks = some (.ok chunks.flatten) := by
  have hok : LocalStorage.validateChunks false [] chunks = .ok () :=
    validateChunks_ok chunks [] (by simp) (by simpa using hsig)
  have hsave : LocalStorage.saveLocalStream key iv chunks =
      .ok { checksum := sha256Digest (chunks.foldl absorbBytes 5381)
            isEncrypted := true
            file := iv ++ ctrEnc key iv 0 chunks.flatten ++
              ghashTag key iv (ctrEnc key iv 0 chunks.flatten) } := by
    simp only [LocalStorage.saveLocalStream, hok]
  refine ⟨?_, ?_⟩
  · rw [hsave]
    simp only [LocalStorage.savedChecksum, foldl_absorbBytes, sha256Model]
  · simp only [LocalStorage.saveThenGet, hsave, LocalStorage.storedFile, Option.map]
    rw [getStream_frame key iv (ctrEnc key iv 0 chunks.flatten) hiv,
      ctrEnc_ctrEnc key iv 0 chunks.flatten]

/-- C1 witness: the round trip at a concrete 6-byte PDF-signature input. -/
theorem object_roundtrip_witness :
    LocalStorage.savedChecksum (LocalStorage.saveLocalStream [1, 2, 3] (List.range 16)
        [[0x25, 0x50, 0x44, 0x46, 0x01, 0x02]]) =
      some (sha256Model [[0x25, 0x50, 0x44, 0x46, 0x01, 0x02]].flatten) ∧
    LocalStorage.saveThenGet [1, 2, 3] (List.range 16)
        [[0x25, 0x50, 0x44, 0x46, 0x01, 0x02]] =
      some (.ok [[0x25, 0x50, 0x44, 0x46, 0x01, 0x02]].flatten) :=
  object_roundtrip [1, 2, 3] (List.range 16) [[0x25, 0x50, 0x44, 0x46, 0x01, 0x02]]
    (by decide) (by decide)

/-- C6: an input whose first 4 bytes match no accepted signature makes
`saveLocalStream` fail with the magic-byte-mismatch error, and the cleanup in
the `catch` block leaves no stored object behind. -/
theorem signature_mismatch_rejected (key iv : List Nat) (chunks : List (List Nat))
    (hlen : 4 ≤ chunks.flatten.length)
    (hsig : validateBuffer (chunks.flatten.take 4) = none) :
    LocalStorage.saveLocalStream key iv chunks = .error .invalidSignature ∧
    LocalStorage.storedFile (LocalStorage.saveLocalStream key iv chunks) = none := by
  have herr : LocalStorage.validateChunks false [] chunks = .error .invalidSignature :=
    validateChunks_err chunks [] (by simp) (by simpa using hlen) (by simpa using hsig)
  have hsave : LocalStorage.saveLocalStream key iv chunks = .error .invalidSignature := by
    simp only [LocalStorage.saveLocalStream, herr]
  exact ⟨hsave, by rw [hsave]; rfl⟩

/-- C6 witness: rejection of a concrete 5-byte stream of unknown signature,
delivered in three chunks. -/
theorem signature_mismatch_rejected_witness :
    LocalStorage.saveLocalStream [1, 2, 3] (List.range 16) [[1, 2], [3], [4, 5]] =
      .error .invalidSignature ∧
    LocalStorage.storedFile (LocalStorage.saveLocalStream [1, 2, 3] (List.range 16)
      [[1, 2], [3], [4, 5]]) = none :=
  signature_mismatch_rejected [1, 2, 3] (List.range 16) [[1, 2], [3], [4, 5]]
    (by decide) (by decide)

/-- C7: saving a zero-length input succeeds and stores exactly 32 bytes — the
16-byte IV immediately followed by the 16-byte authentication tag, with no
ciphertext — and reading the object back yields the empty plaintext. -/
theorem empty_object_roundtrip (key iv : List Nat) (hiv : iv.length = 16) :
    LocalStorage.storedFile (LocalStorage.saveLocalStream key iv []) =
      some (iv ++ ghashTag key iv []) ∧
    (iv ++ ghashTag key iv []).length = 32 ∧
    LocalStorage.saveThenGet key iv [] = some (.ok []) := by
  have hfile : LocalStorage.storedFile (LocalStorage.saveLocalStream key iv []) =
      some (iv ++ [] ++ ghashTag key iv []) := rfl
  refine ⟨by rw [hfile]; simp, ?_, ?_⟩
  · simp [List.length_append, hiv, ghashTag_length]
  · simp only [LocalStorage.saveThenGet, hfile, Option.map]
    rw [getStream_frame key iv [] hiv]
    rfl

/-- C7 witness: the empty-object round trip at a concrete key and IV. -/
theorem empty_object_roundtrip_witness :
    LocalStorage.storedFile (LocalStorage.saveLocalStream [1, 2, 3] (List.range 16) []) =
      some (List.range 16 ++ ghashTag [1, 2, 3] (List.range 16) []) ∧
    (List.range 16 ++ ghashTag [1, 2, 3] (List.range 16) []).length = 32 ∧
    LocalStorage.saveThenGet [1, 2, 3] (List.range 16) [] = some (.ok []) :=
  empty_object_roundtrip [1, 2, 3] (List.range 16) (by decide)

/-- C8: `getStream` fails with the corruption error on every stored object
smaller than 32 bytes, and on every object of at least 32 bytes it decrypts
with the first 16 bytes as the IV and the last 16 bytes as the auth tag,
the bytes strictly between them being the ciphertext. -/
theorem getStream_envelope (key file : List Nat) :
    (file.length < 32 → LocalStorage.getStream key file = .error .corrupted) ∧
    (32 ≤ file.length →
      LocalStorage.getStream key file =
        match gcmDecrypt key (file.take 16) ((file.drop 16).take (file.length - 32))
            (file.drop (file.length - 16)) with
        | some pt => .ok pt
        | none => .error .authFailed) := by
  constructor
  · intro h
    simp only [LocalStorage.getStream]
    rw [if_pos h]
  · intro h
    simp only [LocalStorage.getStream]
    rw [if_neg (by omega)]
    have he : file.length - 16 - 16 = file.length - 32 := by omega
    rw [he]

/-- C8 witness: corruption error on a concrete 3-byte object, and the
envelope decomposition on a concrete 33-byte object. -/
theorem getStream_envelope_witness :
    LocalStorage.getStream [1] [7, 8, 9] = .error .corrupted ∧
    LocalStorage.getStream [1] (List.range 33) =
      match gcmDecrypt [1] ((List.range 33).take 16)
          (((List.range 33).drop 16).take ((List.range 33).length - 32))
          ((List.range 33).drop ((List.range 33).length - 16)) with
      | some pt => .ok pt
      | none => .error .authFailed :=
  ⟨(getStream_envelope [1] [7, 8, 9]).1 (by decide),
   (getStream_envelope [1] (List.range 33)).2 (by decide)⟩

/-- C10: an input of total length 1 to 3 bytes never accumulates the 4 bytes
the magic check requires, so `saveLocalStream` succeeds — even though
`validateBuffer` matches no signature on those bytes — and stores an object
of 32 plus input-length bytes. -/
theorem short_input_skips_validation (key iv : List Nat) (chunks : List (List Nat))
    (hiv : iv.length = 16)
    (h1 : 1 ≤ chunks.flatten.length) (h3 : chunks.flatten.length ≤ 3) :
    validateBuffer chunks.flatten = none ∧
    LocalStorage.savedChecksum (LocalStorage.saveLocalStream key iv chunks) =
      some (sha256Model chunks.flatten) ∧
    (LocalStorage.storedFile (LocalStorage.saveLocalStream key iv chunks)).map
      List.length = some (32 + chunks.flatten.length) := by
  have hok : LocalStorage.validateChunks false [] chunks = .ok () :=
    validateChunks_short chunks [] (by simpa using h3.trans_lt (by omega))
  have hsave : LocalStorage.saveLocalStream key iv chunks =
      .ok { checksum := sha256Digest (chunks.foldl absorbBytes 5381)
            isEncrypted := true
            file := iv ++ ctrEnc key iv 0 chunks.flatten ++
              ghashTag key iv (ctrEnc key iv 0 chunks.flatten) } := by
    simp only [LocalStorage.saveLocalStream, hok]
  refine ⟨?_, ?_, ?_⟩
  · simp only [validateBuffer]
    rw [if_pos (by omega)]
  · rw [hsave]
    simp only [LocalStorage.savedChecksum, foldl_absorbBytes, sha256Model]
  · rw [hsave]
    simp only [LocalStorage.storedFile, Option.map, Option.some.injEq,
      List.length_append, hiv, ghashTag_length, ctrEnc_length]
    omega

/-- C10 witness: a 3-byte input, split over two chunks, is stored as a
35-byte object although its bytes match no accepted signature. -/
theorem short_input_skips_validation_witness :
    validateBuffer [[1, 2], [3]].flatten = none ∧
    LocalStorage.savedChecksum (LocalStorage.saveLocalStream [1, 2, 3] (List.range 16)
      [[1, 2], [3]]) = some (sha256Model [[1, 2], [3]].flatten) ∧
    (LocalStorage.storedFile (LocalStorage.saveLocalStream [1, 2, 3] (List.range 16)
      [[1, 2], [3]])).map List.length = some (32 + [[1, 2], [3]].flatten.length) :=
  short_input_skips_validation [1, 2, 3] (List.range 16) [[1, 2], [3]]
    (by decide) (by decide) (by decide)

/-- C2: for every JSON-serializable payload — one whose serialized byte form
parses back to an equal payload — decrypting the token produced by `encrypt`
with the same keyring returns the payload: `decrypt (encrypt P) = some P`. -/
theorem token_roundtrip {α : Type} (parse : List Nat → Option α)
    (stringify : α → List Nat) (k : List Nat) (ks : List (List Nat))
    (iv : List Nat) (P : α)
    (hp : parse (stringify P) = some P)
    (hs : ∀ b ∈ stringify P, b < 256)
    (hiv : ∀ b ∈ iv, b < 256) :
    Sanitizer.decrypt parse (k :: ks) (Sanitizer.encrypt stringify (k :: ks) iv P) =
      some P := by
  have hct : ∀ b ∈ ctrEnc k iv 0 (stringify P), b < 256 :=
    ctrEnc_lt k iv 0 (stringify P) hs
  have htag := ghashTag_lt k iv (ctrEnc k iv 0 (stringify P))
  simp only [Sanitizer.encrypt, List.headD_cons, Sanitizer.decrypt]
  rw [split_token _ _ _ (toHex_no_colon iv hiv) (toHex_no_colon _ htag)
    (toHex_no_colon _ hct)]
  simp only [fromHex_toHex iv hiv, fromHex_toHex _ htag, fromHex_toHex _ hct]
  simp [Sanitizer.tryKeys, Sanitizer.attemptKey, gcmDecrypt, ctrEnc_ctrEnc, hp]

/-- C2 witness: the token round trip at a concrete payload, serialization and
keyring. -/
theorem token_roundtrip_witness :
    Sanitizer.decrypt (fun l => some l) [[9, 9]]
      (Sanitizer.encrypt (fun l => l) [[9, 9]] (List.range 16) [104, 105]) =
      some [104, 105] :=
  token_roundtrip (fun l => some l) (fun l => l) [9, 9] [] (List.range 16)
    [104, 105] rfl (by decide) (by decide)

/-- C5: a token encrypted while key `K` sat at keyring index 0 still decrypts
to its payload after rotation places a new key `Kp` at index 0 and `K` at
index 1, provided `Kp` fails to authenticate the token (its tag under `Kp`
differs from the token's tag, the AEAD-security side condition). -/
theorem key_rotation {α : Type} (parse : List Nat → Option α)
    (stringify : α → List Nat) (K Kp : List Nat) (ks0 rest : List (List Nat))
    (iv : List Nat) (P : α)
    (hp : parse (stringify P) = some P)
    (hs : ∀ b ∈ stringify P, b < 256)
    (hiv : ∀ b ∈ iv, b < 256)
    (hfail : ghashTag Kp iv (ctrEnc K iv 0 (stringify P)) ≠
      ghashTag K iv (ctrEnc K iv 0 (stringify P))) :
    Sanitizer.decrypt parse (Kp :: K :: rest)
      (Sanitizer.encrypt stringify (K :: ks0) iv P) = some P := by
  have hct : ∀ b ∈ ctrEnc K iv 0 (stringify P), b < 256 :=
    ctrEnc_lt K iv 0 (stringify P) hs
  have htag := ghashTag_lt K iv (ctrEnc K iv 0 (stringify P))
  simp only [Sanitizer.encrypt, List.headD_cons, Sanitizer.decrypt]
  rw [split_token _ _ _ (toHex_no_colon iv hiv) (toHex_no_colon _ htag)
    (toHex_no_colon _ hct)]
  simp only [fromHex_toHex iv hiv, fromHex_toHex _ htag, fromHex_toHex _ hct]
  simp [Sanitizer.tryKeys, Sanitizer.attemptKey, gcmDecrypt, ctrEnc_ctrEnc, hp, hfail]

/-- C5 witness: rotation at concrete keys whose tags over the concrete token
differ, so the index-0 key fails and the demoted key at index 1 succeeds. -/
theorem key_rotation_witness :
    Sanitizer.decrypt (fun l => some l) [[7, 7], [9, 9]]
      (Sanitizer.encrypt (fun l => l) [[9, 9]] (List.range 16) [104, 105]) =
      some [104, 105] :=
  key_rotation (fun l => some l) (fun l => l) [9, 9] [7, 7] [] [] (List.range 16)
    [104, 105] rfl (by decide) (by decide) (by decide)

/-- C4: `decrypt` fails closed — any token that does not split into exactly
three colon-separated fields yields `none`; with three fields the result is
the key-rotation loop over the keyring in order, which yields `none` when
every key's attempt fails, and yields `some p` only when some key
authenticates the ciphertext (its tag matches) and `p` parses from that
key's decryption, every earlier key having failed. -/
theorem decrypt_fail_closed {α : Type} (parse : List Nat → Option α)
    (keys : List (List Nat)) (tk : List Char) :
    ((splitOnChar ':' tk).length ≠ 3 → Sanitizer.decrypt parse keys tk = none) ∧
    (∀ ivh tagh cth, splitOnChar ':' tk = [ivh, tagh, cth] →
      ((∀ k ∈ keys, Sanitizer.attemptKey parse (fromHexLenient ivh)
          (fromHexLenient tagh) (fromHexLenient cth) k = none) →
        Sanitizer.decrypt parse keys tk = none) ∧
      (∀ p, Sanitizer.decrypt parse keys tk = some p →
        ∃ pre key post, keys = pre ++ key :: post ∧
          ghashTag key (fromHexLenient ivh) (fromHexLenient cth) = fromHexLenient tagh ∧
          parse (ctrEnc key (fromHexLenient ivh) 0 (fromHexLenient cth)) = some p ∧
          ∀ k' ∈ pre, Sanitizer.attemptKey parse (fromHexLenient ivh)
            (fromHexLenient tagh) (fromHexLenient cth) k' = none)) := by
  constructor
  · intro hlen
    simp only [Sanitizer.decrypt]
    split
    · rename_i heq
      rw [heq] at hlen
      simp at hlen
    · rfl
  · intro ivh tagh cth heq
    constructor
    · intro hall
      simp only [Sanitizer.decrypt, heq]
      exact tryKeys_none parse _ _ _ keys hall
    · intro p hp
      simp only [Sanitizer.decrypt, heq] at hp
      obtain ⟨pre, key, post, hkeys, hkey, hpre⟩ := tryKeys_some parse _ _ _ keys p hp
      obtain ⟨htag, hparse⟩ := (attemptKey_some_iff parse _ _ _ key p).mp hkey
      exact ⟨pre, key, post, hkeys, htag, hparse, hpre⟩

/-- C4 witness: the arity check at a concrete malformed token with a single
field. -/
theorem decrypt_fail_closed_witness :
    Sanitizer.decrypt (fun l => some l) [[9, 9]] ['a', 'b'] = none :=
  (decrypt_fail_closed (fun l => some l) [[9, 9]] ['a', 'b']).1 (by decide)

set_option maxRecDepth 4096 in
/-- C3 is refuted by the code: `encrypt` draws no randomness at all — the
nonce field of every token is the hex of the module-level configured IV
(`PARSED_IV` from `config.security.encryptionIv`), so two invocations on
distinct payloads share the same nonce field instead of carrying fresh
per-invocation randomness.  Evaluated at two concrete invocations. -/
theorem token_nonce_is_configured_iv :
    (splitOnChar ':' (Sanitizer.encrypt (fun l => l) [[9, 9]] (List.range 16)
        [1])).headD [] = toHex (List.range 16) ∧
    (splitOnChar ':' (Sanitizer.encrypt (fun l => l) [[9, 9]] (List.range 16)
        [2])).headD [] = toHex (List.range 16) ∧
    ([1] : List Nat) ≠ [2] := by
  decide

/-- C9 counterexample: the one-character configured key `"k"` is padded to
32 bytes by the storage pipeline's `_parseKey`, but the token codec's
`PARSED_KEYS` mapping leaves it as the raw 1-byte string — it is neither
padded nor truncated, refuting the claim that both parsers normalize every
non-hex key to exactly 32 bytes. -/
theorem parseKey_divergence :
    Sanitizer.parseKeyEntry ['k'] = [107] ∧
    (Sanitizer.parseKeyEntry ['k']).length ≠ 32 ∧
    (LocalStorage.parseKey ['k']).length = 32 := by
  decide

/-- C9 amended: a configured key whose length is not 64 is padded or
truncated to exactly 32 bytes by the storage-pipeline key parsing, while the
token-codec key parsing leaves it unchanged as the raw bytes of the string
(so it is 256 bits only when configured with exactly 32 characters). -/
theorem parseKey_semantics (k : List Char) (h : k.length ≠ 64) :
    (LocalStorage.parseKey k).length = 32 ∧
    Sanitizer.parseKeyEntry k = k.map Char.toNat := by
  constructor
  · simp only [LocalStorage.parseKey, if_neg h, List.length_map, List.length_take,
      List.length_append, List.length_replicate]
    omega
  · simp [Sanitizer.parseKeyEntry, h]

/-- C9 amended witness: the two parsers applied to the concrete key `"k"`. -/
theorem parseKey_semantics_witness :
    (LocalStorage.parseKey ['k']).length = 32 ∧
    Sanitizer.parseKeyEntry ['k'] = ['k'].map Char.toNat :=
  parseKey_semantics ['k'] (by decide)

end TempDL
